import Mathlib

/-!
# Verification of the Pre-Sales Assistant text pipeline

Shallow embedding of the pure core of `src/app.py`: the text cleaner
(`clean_text`), the chunker (`split_into_chunks`), the summarizer
orchestrator (`generate_summary`, with the external neural summarizer
modelled as an oracle that may fail on each call), and the keyword
retriever (`find_answer`).

Strings are Lean `String`s; each Python string primitive is embedded as
an executable function on the underlying character list.  Character
classes (whitespace, `\w`) are modelled over the ASCII range that the
pipeline's data actually uses.
-/

set_option maxRecDepth 100000

/-- Python `str` whitespace test, restricted to the ASCII whitespace
characters (space, tab, newline, carriage return, vertical tab, form
feed).  Used by `.strip()` and `.split()`. -/
def isPySpace (c : Char) : Bool :=
  c == ' ' || c == '\t' || c == '\n' || c == '\r' || c == '\x0b' || c == '\x0c'

/-- Remove the trailing characters satisfying `sep` (helper for `.strip()`). -/
def dropTrailing (sep : Char → Bool) (l : List Char) : List Char :=
  (l.reverse.dropWhile sep).reverse

/-- Python `s.strip()` on the character list: drop leading and trailing
whitespace. -/
def stripL (l : List Char) : List Char :=
  dropTrailing isPySpace (l.dropWhile isPySpace)

/-- Python `s.strip()`. -/
def pyStrip (s : String) : String := ⟨stripL s.data⟩

/-- Maximal runs of non-separator characters, accumulator form.
`splitRuns sep` is Python `re.findall` of "one or more non-`sep` chars":
it realises both `s.split()` (with `sep` = whitespace) and
`re.findall(r'\w+', s)` (with `sep` = non-word chars). -/
def splitRunsAux (sep : Char → Bool) : List Char → List Char → List (List Char)
  | [], acc => if acc.isEmpty then [] else [acc.reverse]
  | c :: cs, acc =>
    if sep c then
      if acc.isEmpty then splitRunsAux sep cs [] else acc.reverse :: splitRunsAux sep cs []
    else
      splitRunsAux sep cs (c :: acc)

/-- Maximal runs of non-`sep` characters in `l`. -/
def splitRuns (sep : Char → Bool) (l : List Char) : List (List Char) :=
  splitRunsAux sep l []

/-- Python `s.split()` (no argument): whitespace-separated words of a
character list. -/
def wordsL (l : List Char) : List (List Char) := splitRuns isPySpace l

/-- `len(s.split())`: the word count of a string. -/
def wordCount (s : String) : Nat := (wordsL s.data).length

/-- Python `sep.join(parts)` at the character-list level. -/
def joinSepL (sep : List Char) : List (List Char) → List Char
  | [] => []
  | [p] => p
  | p :: ps => p ++ sep ++ joinSepL sep ps

/-- `"\n".join(lines)`. -/
def joinNL (lines : List String) : String := ⟨joinSepL ['\n'] (lines.map String.data)⟩

/-- `" ".join(parts).strip()` — used both when the chunker closes a chunk
and when the orchestrator combines the per-chunk summaries. -/
def combineJoin (parts : List String) : String :=
  ⟨stripL (joinSepL [' '] (parts.map String.data))⟩

/-- Python `s.lower()` (ASCII case folding, per character). -/
def lowerStr (s : String) : String := ⟨s.data.map Char.toLower⟩

/-- Python `str.splitlines()` boundaries, restricted to `\n`, `\r` and
`\r\n` (the combination is one boundary); the rarer control characters
Python also treats as boundaries do not occur in this pipeline's data. -/
def splitlinesAux : List Char → List Char → List String
  | [], acc => if acc.isEmpty then [] else [⟨acc.reverse⟩]
  | '\r' :: '\n' :: cs, acc => ⟨acc.reverse⟩ :: splitlinesAux cs []
  | c :: cs, acc =>
    if c == '\n' || c == '\r' then ⟨acc.reverse⟩ :: splitlinesAux cs []
    else splitlinesAux cs (c :: acc)

/-- Python `text.splitlines()`. -/
def pySplitlines (text : String) : List String := splitlinesAux text.data []

/-- Python `needle in hay` on strings: substring containment. -/
def containsSub (needle : List Char) : List Char → Bool
  | [] => needle.isEmpty
  | c :: cs => needle.isPrefixOf (c :: cs) || containsSub needle cs

/-- The junk markers of `clean_text` (`src/app.py` line 31). -/
def JUNK : List String := ["cnn.com", "gallery.com", "ireport.com", "visit", "next week"]

/-- `any(bad in line for bad in JUNK)` where `line` is already lowercased. -/
def isJunk (line : String) : Bool :=
  JUNK.any (fun bad => containsSub bad.data line.data)

/-- The line loop of `clean_text` (`src/app.py` lines 25-34): strip the
line, skip it when blank, when its lowercase form was seen, or when it
contains a junk marker; otherwise keep it and record its lowercase form. -/
def cleanLoop : List String → List String → List String
  | [], _ => []
  | l :: ls, seen =>
    let t := pyStrip l
    if t = "" then cleanLoop ls seen
    else if lowerStr t ∈ seen then cleanLoop ls seen
    else if isJunk (lowerStr t) then cleanLoop ls seen
    else t :: cleanLoop ls (lowerStr t :: seen)

/-- `clean_text` (`src/app.py` lines 21-35). -/
def clean_text (text : String) : String :=
  joinNL (cleanLoop (pySplitlines text) [])

/-- Scanner for `re.split(r'(?<=[.!?]) +', text)`: a run of spaces whose
preceding character is `.`, `!` or `?` is a separator (consumed greedily);
`inSep` records that we are inside such a run. -/
def splitSentAux : List Char → Option Char → Bool → List Char → List (List Char)
  | [], _, _, acc => [acc.reverse]
  | c :: cs, prev, inSep, acc =>
    if inSep then
      if c == ' ' then splitSentAux cs prev true acc
      else splitSentAux cs (some c) false (c :: acc)
    else if c == ' ' && (prev == some '.' || prev == some '!' || prev == some '?') then
      acc.reverse :: splitSentAux cs prev true []
    else splitSentAux cs (some c) false (c :: acc)

/-- `re.split(r'(?<=[.!?]) +', text)` — the sentence units of the chunker. -/
def reSplit (text : String) : List String :=
  (splitSentAux text.data none false []).map (fun l => ⟨l⟩)

/-- `sum(len(s.split()) for s in current)`. -/
def wcSum (current : List String) : Nat :=
  (current.map (fun s => (wordsL s.data).length)).sum

/-- The sentence loop of `split_into_chunks` (`src/app.py` lines 60-71):
skip whitespace-only sentences; append the stripped sentence to the
current chunk when it fits the word budget, otherwise close the current
chunk and start a new one with that sentence; finally flush a nonempty
current chunk. -/
def chunkLoop (mw : Nat) : List String → List String → List String
  | [], current => if current.isEmpty then [] else [combineJoin current]
  | s :: rest, current =>
    if (wordsL (stripL s.data)).isEmpty then chunkLoop mw rest current
    else if wcSum current + (wordsL (stripL s.data)).length ≤ mw then
      chunkLoop mw rest (current ++ [pyStrip s])
    else
      combineJoin current :: chunkLoop mw rest [pyStrip s]

/-- `split_into_chunks` (`src/app.py` lines 55-73). -/
def split_into_chunks (text : String) (max_words : Nat := 250) : List String :=
  chunkLoop max_words (reSplit text) []

/-- The external summarization capability, modelled as an oracle over the
sequence of calls one run makes: argument 1 is the call index (the calls
of a run are numbered in order), then the input text, `max_length` and
`min_length`; `none` models a call that raises. -/
def Summarizer : Type := Nat → String → Nat → Nat → Option String

/-- The sentinel returned for an empty document (`src/app.py` line 79). -/
def emptyDocMsg : String := "The document is empty or could not be processed."

/-- The per-chunk summary list (`src/app.py` lines 84-96), calls numbered
from `i`: a failed call contributes the empty string. -/
def chunkSummariesFrom (sm : Summarizer) (i : Nat) : List String → List String
  | [] => []
  | c :: cs => (sm i c 200 100).getD "" :: chunkSummariesFrom sm (i + 1) cs

/-- The per-chunk summaries of a chunk list, calls numbered from 0. -/
def chunkSummaries (sm : Summarizer) (chunks : List String) : List String :=
  chunkSummariesFrom sm 0 chunks

/-- Lines 84-113 of `src/app.py`: summarize every chunk, combine, and
refine once when the combination has 300 words or more (the refinement
call is the next call after the per-chunk ones, with bounds 150-250);
a failed refinement falls back to the combined string. -/
def summarizeChunks (sm : Summarizer) (chunks : List String) : String :=
  let combined := combineJoin (chunkSummaries sm chunks)
  if wordCount combined < 300 then combined
  else
    match sm chunks.length combined 250 150 with
    | some s => s
    | none => combined

/-- The chunk list actually summarized: in fast mode, more than 4 chunks
are truncated to the first 4 (`src/app.py` lines 81-82). -/
def retainedChunks (text : String) (fast_mode : Bool) : List String :=
  let chunks := split_into_chunks text
  if fast_mode && decide (4 < chunks.length) then chunks.take 4 else chunks

/-- `generate_summary` (`src/app.py` lines 76-113). -/
def generate_summary (sm : Summarizer) (text : String) (fast_mode : Bool := false) : String :=
  if (split_into_chunks text).isEmpty then emptyDocMsg
  else summarizeChunks sm (retainedChunks text fast_mode)

/-- The per-chunk summaries of one `generate_summary` run. -/
def summariesOf (sm : Summarizer) (text : String) (fast_mode : Bool) : List String :=
  chunkSummaries sm (retainedChunks text fast_mode)

/-- `combined = " ".join(summaries).strip()` of one `generate_summary` run. -/
def combinedOf (sm : Summarizer) (text : String) (fast_mode : Bool) : String :=
  combineJoin (summariesOf sm text fast_mode)

/-- Python `\w` (word character), over the ASCII range: letters, digits,
underscore. -/
def isWordChar (c : Char) : Bool := c.isAlphanum || c == '_'

/-- `set(re.findall(r'\w+', s.lower()))`: the lowercase token set of a
string, as a finite set of character lists. -/
def tokensOf (s : String) : Finset (List Char) :=
  (splitRuns (fun c => !isWordChar c) ((lowerStr s).data)).toFinset

/-- `len(question_words.intersection(chunk_words))` — the retrieval score
of a chunk against a question. -/
def scoreOf (q c : String) : Nat := ((tokensOf q) ∩ (tokensOf c)).card

/-- The sentinel of `find_answer` (`src/app.py` line 128). -/
def notFoundMsg : String := "❌ Sorry, I couldn\x27t find the answer in the document."

/-- The chunk loop of `find_answer` (`src/app.py` lines 121-126),
generalized over the score function: replace the best chunk only on a
strictly greater score. -/
def faLoop (f : String → Nat) : List String → Option String → Nat → Option String
  | [], best, _ => best
  | c :: rest, best, maxm =>
    if maxm < f c then faLoop f rest (some c) (f c)
    else faLoop f rest best maxm

/-- `find_answer` (`src/app.py` lines 116-128).  `best_chunk or sentinel`
yields the sentinel when `best_chunk` is `None` or the empty string
(Python truthiness). -/
def find_answer (question : String) (text_chunks : List String) : String :=
  match faLoop (fun c => scoreOf question c) text_chunks none 0 with
  | some b => if b = "" then notFoundMsg else b
  | none => notFoundMsg

/-- The nonempty stripped sentence units of a text: those atomic units
the chunk loop does not skip. -/
def nonWsUnits (text : String) : List String :=
  ((reSplit text).map pyStrip).filter (fun t => !(wordsL t.data).isEmpty)

/-- The claim's reading of the cleaner contract (§4.1 of the spec),
modelled from the spec words: trim each line, drop the lines containing a
junk marker, drop case-insensitive duplicates keeping the first
occurrence, join the rest.  (No removal of blank lines.) -/
def dedupCI : List String → List String → List String
  | [], _ => []
  | l :: ls, seen =>
    if lowerStr l ∈ seen then dedupCI ls seen
    else l :: dedupCI ls (lowerStr l :: seen)

/-- The cleaner as the claim describes it (trim / drop junk / dedup). -/
def clean_text_claim (text : String) : String :=
  joinNL (dedupCI (((pySplitlines text).map pyStrip).filter
    (fun l => !(isJunk (lowerStr l)))) [])

/-- The cleaner as the claim describes it, amended with the blank-line
removal the code performs: lines that are empty after trimming are
dropped as well. -/
def clean_text_amended (text : String) : String :=
  joinNL (dedupCI ((((pySplitlines text).map pyStrip).filter (fun l => l ≠ "")).filter
    (fun l => !(isJunk (lowerStr l)))) [])

/-- A 251-word sentence (250 repetitions of a one-letter word, then the
same word with the sentence period): one atomic unit over the default
250-word budget. -/
def manyWords (c : Char) : String :=
  ⟨(List.replicate 250 [c, ' ']).flatten ++ [c, '.']⟩

/-- Four oversized sentences: `split_into_chunks` (default budget) yields
five chunks on this text. -/
def bigText : String :=
  manyWords 'a' ++ " " ++ manyWords 'b' ++ " " ++ manyWords 'c' ++ " " ++ manyWords 'd'

/-- A 40-word paragraph consisting of one sentence. -/
def para1 : String := ⟨(List.replicate 39 ['a', ' ']).flatten ++ ['a', '.']⟩

/-- Another 40-word one-sentence paragraph. -/
def para2 : String := ⟨(List.replicate 39 ['b', ' ']).flatten ++ ['b', '.']⟩

/-! ## Lemmas on the word splitter -/

theorem splitRunsAux_append_sep (sep : Char → Bool) {c : Char} (hc : sep c = true)
    (xs ys : List Char) : ∀ acc, splitRunsAux sep (xs ++ c :: ys) acc
      = splitRunsAux sep xs acc ++ splitRunsAux sep ys [] := by
  induction xs with
  | nil => intro acc; cases acc <;> simp [splitRunsAux, hc]
  | cons x xs ih =>
    intro acc
    by_cases hx : sep x
    · cases acc <;> simp [splitRunsAux, hx, ih]
    · simp [splitRunsAux, hx, ih]

theorem splitRunsAux_all_sep (sep : Char → Bool) :
    ∀ (l : List Char), (∀ c ∈ l, sep c = true) → ∀ acc,
      splitRunsAux sep l acc = if acc.isEmpty then [] else [acc.reverse] := by
  intro l
  induction l with
  | nil => intro _ acc; simp [splitRunsAux]
  | cons x xs ih =>
    intro h acc
    have hx : sep x = true := h x (by simp)
    have hxs : ∀ c ∈ xs, sep c = true := fun c hcm => h c (List.mem_cons_of_mem _ hcm)
    cases acc <;> simp [splitRunsAux, hx, ih hxs]

theorem splitRuns_dropWhile (sep : Char → Bool) (l : List Char) :
    splitRuns sep (l.dropWhile sep) = splitRuns sep l := by
  induction l with
  | nil => rfl
  | cons x xs ih =>
    by_cases hx : sep x
    · rw [List.dropWhile_cons_of_pos hx, ih]
      simp [splitRuns, splitRunsAux, hx]
    · rw [List.dropWhile_cons_of_neg (by simp [hx])]

theorem rdropWhile_append_rtakeWhile (sep : Char → Bool) (l : List Char) :
    List.rdropWhile sep l ++ List.rtakeWhile sep l = l := by
  rw [List.rdropWhile, List.rtakeWhile, ← List.reverse_append,
    List.takeWhile_append_dropWhile, List.reverse_reverse]

theorem splitRuns_rdropWhile (sep : Char → Bool) (l : List Char) :
    splitRuns sep (List.rdropWhile sep l) = splitRuns sep l := by
  have hsplit := rdropWhile_append_rtakeWhile sep l
  cases htk : List.rtakeWhile sep l with
  | nil => rw [htk, List.append_nil] at hsplit; rw [hsplit]
  | cons t ts =>
    have hts : ∀ x ∈ t :: ts, sep x = true := fun x hx =>
      List.mem_rtakeWhile_imp (htk ▸ hx)
    conv_rhs => rw [← hsplit, htk]
    rw [splitRuns, splitRuns,
      splitRunsAux_append_sep sep (hts t (by simp)) (List.rdropWhile sep l) ts,
      splitRunsAux_all_sep sep ts (fun x hx => hts x (by simp [hx])) []]
    simp

theorem wordsL_stripL (l : List Char) : wordsL (stripL l) = wordsL l := by
  show splitRuns isPySpace (List.rdropWhile isPySpace (l.dropWhile isPySpace))
      = splitRuns isPySpace l
  rw [splitRuns_rdropWhile, splitRuns_dropWhile]

theorem splitRuns_joinSepL (sep : Char → Bool) {c : Char} (hc : sep c = true) :
    ∀ parts : List (List Char),
      splitRuns sep (joinSepL [c] parts) = (parts.map (splitRuns sep)).flatten := by
  intro parts
  induction parts with
  | nil => rfl
  | cons p ps ih =>
    cases ps with
    | nil => simp [joinSepL]
    | cons q qs =>
      have hjoin : joinSepL [c] (p :: q :: qs) = p ++ c :: joinSepL [c] (q :: qs) := by
        simp [joinSepL]
      rw [hjoin, splitRuns, splitRunsAux_append_sep sep hc p (joinSepL [c] (q :: qs))]
      rw [show splitRunsAux sep (joinSepL [c] (q :: qs)) [] =
        splitRuns sep (joinSepL [c] (q :: qs)) from rfl, ih]
      simp [splitRuns]

theorem wordCount_combineJoin (parts : List String) :
    wordCount (combineJoin parts) = wcSum parts := by
  show (wordsL (stripL (joinSepL [' '] (parts.map String.data)))).length = wcSum parts
  rw [wordsL_stripL]
  show (splitRuns isPySpace (joinSepL [' '] (parts.map String.data))).length = wcSum parts
  rw [splitRuns_joinSepL isPySpace (by decide) (parts.map String.data),
    List.length_flatten, List.map_map, List.map_map]
  rfl

theorem dropWhile_cons_self_not (p : Char → Bool) (a : Char) (l : List Char)
    (h : (a :: l).dropWhile p = a :: l) : p a = false := by
  by_cases hp : p a
  · exfalso
    rw [List.dropWhile_cons_of_pos hp] at h
    have hle := (List.dropWhile_sublist (l := l) p).length_le
    rw [h] at hle
    simp at hle
  · simpa using hp

theorem dropWhile_rdropWhile (sep : Char → Bool) (A : List Char)
    (hA : A.dropWhile sep = A) :
    (List.rdropWhile sep A).dropWhile sep = List.rdropWhile sep A := by
  obtain ⟨t, ht⟩ := List.rdropWhile_prefix sep A
  cases hR : List.rdropWhile sep A with
  | nil => rfl
  | cons a as =>
    have hAeq : A = a :: (as ++ t) := by rw [← ht, hR]; simp
    have ha : sep a = false := dropWhile_cons_self_not sep a (as ++ t) (hAeq ▸ hA)
    rw [List.dropWhile_cons_of_neg (by simp [ha])]

theorem stripL_idem (l : List Char) : stripL (stripL l) = stripL l := by
  show stripL (List.rdropWhile isPySpace (l.dropWhile isPySpace))
      = List.rdropWhile isPySpace (l.dropWhile isPySpace)
  have h1 : (l.dropWhile isPySpace).dropWhile isPySpace = l.dropWhile isPySpace :=
    List.dropWhile_idempotent isPySpace l
  have h2 := dropWhile_rdropWhile isPySpace (l.dropWhile isPySpace) h1
  show List.rdropWhile isPySpace
      ((List.rdropWhile isPySpace (l.dropWhile isPySpace)).dropWhile isPySpace)
      = List.rdropWhile isPySpace (l.dropWhile isPySpace)
  rw [h2, List.rdropWhile_idempotent]

theorem pyStrip_idem (s : String) : pyStrip (pyStrip s) = pyStrip s :=
  congrArg String.mk (stripL_idem s.data)

theorem combineJoin_singleton (s : String) : combineJoin [pyStrip s] = pyStrip s := by
  show (⟨stripL (stripL s.data)⟩ : String) = ⟨stripL s.data⟩
  rw [stripL_idem]

theorem wcSum_append_single (current : List String) (t : String) :
    wcSum (current ++ [t]) = wcSum current + (wordsL t.data).length := by
  unfold wcSum
  rw [List.map_append, List.sum_append]
  simp

/-! ## Lemmas on the chunk loop -/

/-- The loop invariant of `chunkLoop`: the current chunk is within budget,
or holds exactly one oversized unit. -/
def ChunkInv (mw : Nat) (T : List String) (current : List String) : Prop :=
  wcSum current ≤ mw ∨ ∃ u ∈ T, current = [u] ∧ mw < wordCount u

theorem emitted_chunk_ok (mw : Nat) (T : List String)
    (hT : ∀ u ∈ T, pyStrip u = u) (current : List String)
    (hinv : ChunkInv mw T current) :
    wordCount (combineJoin current) ≤ mw ∨
      (combineJoin current ∈ T ∧ mw < wordCount (combineJoin current)) := by
  rcases hinv with hle | ⟨u, huT, hceq, hwc⟩
  · left; rw [wordCount_combineJoin]; exact hle
  · right
    have hjoin : combineJoin current = u := by
      rw [hceq, ← hT u huT, combineJoin_singleton, hT u huT]
    rw [hjoin]
    exact ⟨huT, hwc⟩

theorem chunkLoop_budget (mw : Nat) (T : List String)
    (hT : ∀ u ∈ T, pyStrip u = u) :
    ∀ (sents current : List String),
      (∀ s ∈ sents, pyStrip s ∈ T) → ChunkInv mw T current →
      ∀ c ∈ chunkLoop mw sents current,
        wordCount c ≤ mw ∨ (c ∈ T ∧ mw < wordCount c) := by
  intro sents
  induction sents with
  | nil =>
    intro current _ hinv c hc
    by_cases hcur : current.isEmpty
    · simp [chunkLoop, hcur] at hc
    · simp only [chunkLoop, if_neg hcur, List.mem_singleton] at hc
      exact hc ▸ emitted_chunk_ok mw T hT current hinv
  | cons s rest ih =>
    intro current hsents hinv c hc
    have hrest : ∀ x ∈ rest, pyStrip x ∈ T :=
      fun x hx => hsents x (List.mem_cons_of_mem _ hx)
    by_cases h1 : (wordsL (stripL s.data)).isEmpty
    · rw [chunkLoop, if_pos h1] at hc
      exact ih current hrest hinv c hc
    · by_cases h2 : wcSum current + (wordsL (stripL s.data)).length ≤ mw
      · rw [chunkLoop, if_neg h1, if_pos h2] at hc
        refine ih (current ++ [pyStrip s]) hrest (Or.inl ?_) c hc
        rw [wcSum_append_single]
        exact h2
      · rw [chunkLoop, if_neg h1, if_neg h2] at hc
        rcases List.mem_cons.mp hc with hc0 | hcrec
        · exact hc0 ▸ emitted_chunk_ok mw T hT current hinv
        · refine ih [pyStrip s] hrest ?_ c hcrec
          rcases le_or_lt (wordsL (stripL s.data)).length mw with hw | hw
          · left; simpa [wcSum] using hw
          · exact Or.inr ⟨pyStrip s, hsents s (List.mem_cons_self s rest), rfl, hw⟩

theorem chunkLoop_cover (mw : Nat) :
    ∀ (sents current : List String), ∃ groups : List (List String),
      chunkLoop mw sents current = groups.map combineJoin ∧
      groups.flatten
        = current ++ (sents.map pyStrip).filter (fun t => !(wordsL t.data).isEmpty) := by
  intro sents
  induction sents with
  | nil =>
    intro current
    cases current with
    | nil => exact ⟨[], by simp [chunkLoop], by simp⟩
    | cons a as => exact ⟨[a :: as], by simp [chunkLoop], by simp⟩
  | cons s rest ih =>
    intro current
    by_cases h1 : (wordsL (stripL s.data)).isEmpty
    · obtain ⟨groups, hg1, hg2⟩ := ih current
      refine ⟨groups, ?_, ?_⟩
      · rw [chunkLoop, if_pos h1]; exact hg1
      · rw [hg2]
        have : (wordsL (pyStrip s).data).isEmpty = true := h1
        simp [this]
    · by_cases h2 : wcSum current + (wordsL (stripL s.data)).length ≤ mw
      · obtain ⟨groups, hg1, hg2⟩ := ih (current ++ [pyStrip s])
        refine ⟨groups, ?_, ?_⟩
        · rw [chunkLoop, if_neg h1, if_pos h2]; exact hg1
        · rw [hg2]
          have h1f : ((wordsL (pyStrip s).data).isEmpty : Bool) = false := by
            simpa using h1
          simp [h1f]
      · obtain ⟨groups, hg1, hg2⟩ := ih [pyStrip s]
        refine ⟨current :: groups, ?_, ?_⟩
        · rw [chunkLoop, if_neg h1, if_neg h2]
          simpa [List.map_cons] using congrArg (combineJoin current :: ·) hg1
        · have h1f : ((wordsL (pyStrip s).data).isEmpty : Bool) = false := by
            simpa using h1
          simp [hg2, h1f]

theorem chunkLoop_first_oversized (mw : Nat) :
    ∀ (sents : List String) (s0 : String) (tl : List String),
      (sents.map pyStrip).filter (fun t => !(wordsL t.data).isEmpty) = s0 :: tl →
      mw < wordCount s0 →
      ∃ tail, chunkLoop mw sents [] = "" :: tail := by
  intro sents
  induction sents with
  | nil => intro s0 tl h _; simp at h
  | cons s rest ih =>
    intro s0 tl hfil hwc
    by_cases h1 : (wordsL (stripL s.data)).isEmpty
    · have h1t : ((wordsL (pyStrip s).data).isEmpty : Bool) = true := h1
      rw [List.map_cons, List.filter_cons] at hfil
      simp only [h1t, Bool.not_true, if_neg] at hfil
      obtain ⟨tail, htail⟩ := ih s0 tl (by simpa using hfil) hwc
      exact ⟨tail, by rw [chunkLoop, if_pos h1]; exact htail⟩
    · have h1f : ((wordsL (pyStrip s).data).isEmpty : Bool) = false := by simpa using h1
      rw [List.map_cons, List.filter_cons] at hfil
      simp only [h1f, Bool.not_false, if_pos] at hfil
      have hs0 : s0 = pyStrip s := by
        cases hfil
        rfl
      have hbig : ¬ (wcSum [] + (wordsL (stripL s.data)).length ≤ mw) := by
        have : wordCount s0 = (wordsL (stripL s.data)).length := by rw [hs0]; rfl
        rw [this] at hwc
        simp [wcSum]
        omega
      refine ⟨chunkLoop mw rest [pyStrip s], ?_⟩
      rw [chunkLoop, if_neg h1, if_neg hbig]
      rfl

/-! ## Lemmas on the cleaner -/

theorem cleanLoop_eq_spec : ∀ (ls seen : List String),
    cleanLoop ls seen =
      dedupCI (((ls.map pyStrip).filter (fun l => l ≠ "")).filter
        (fun l => !(isJunk (lowerStr l)))) seen := by
  intro ls
  induction ls with
  | nil => intro seen; rfl
  | cons l ls ih =>
    intro seen
    by_cases hb : pyStrip l = ""
    · simp [cleanLoop, hb, ih]
    · by_cases hj : isJunk (lowerStr (pyStrip l))
      · by_cases hs : lowerStr (pyStrip l) ∈ seen
        · simp [cleanLoop, hb, hs, hj, ih]
        · simp [cleanLoop, hb, hs, hj, ih]
      · by_cases hs : lowerStr (pyStrip l) ∈ seen
        · simp [cleanLoop, dedupCI, hb, hs, hj, ih]
        · simp [cleanLoop, dedupCI, hb, hs, hj, ih]

/-! ## Lemmas on the retriever loop -/

theorem faLoop_le (f : String → Nat) :
    ∀ (cs : List String) (best : Option String) (maxm : Nat),
      (∀ c ∈ cs, f c ≤ maxm) → faLoop f cs best maxm = best := by
  intro cs
  induction cs with
  | nil => intro best maxm _; rfl
  | cons c rest ih =>
    intro best maxm h
    have hc : ¬ maxm < f c := not_lt.mpr (h c (by simp))
    rw [faLoop, if_neg hc]
    exact ih best maxm (fun x hx => h x (by simp [hx]))

theorem faLoop_pos (f : String → Nat) :
    ∀ (cs : List String) (best : Option String) (maxm : Nat),
      (∃ c ∈ cs, maxm < f c) →
      ∃ pre a post, cs = pre ++ a :: post ∧
        faLoop f cs best maxm = some a ∧ maxm < f a ∧
        (∀ x ∈ pre, f x < f a) ∧ (∀ x ∈ cs, f x ≤ f a) := by
  intro cs
  induction cs with
  | nil => intro best maxm h; simp at h
  | cons c rest ih =>
    intro best maxm hex
    by_cases hc : maxm < f c
    · rw [faLoop, if_pos hc]
      by_cases hrest : ∃ x ∈ rest, f c < f x
      · obtain ⟨pre, a, post, hsplit, hloop, hfa, hpre, hall⟩ := ih (some c) (f c) hrest
        refine ⟨c :: pre, a, post, by rw [hsplit]; rfl, hloop, lt_trans hc hfa, ?_, ?_⟩
        · intro x hx
          rcases List.mem_cons.mp hx with rfl | hx
          · exact hfa
          · exact hpre x hx
        · intro x hx
          rcases List.mem_cons.mp hx with rfl | hx
          · exact le_of_lt hfa
          · exact hall x hx
      · push_neg at hrest
        have hloop : faLoop f rest (some c) (f c) = some c :=
          faLoop_le f rest (some c) (f c) hrest
        refine ⟨[], c, rest, rfl, hloop, hc, by simp, ?_⟩
        intro x hx
        rcases List.mem_cons.mp hx with rfl | hx
        · exact le_refl _
        · exact hrest x hx
    · rw [faLoop, if_neg hc]
      have hex2 : ∃ x ∈ rest, maxm < f x := by
        obtain ⟨x, hx, hfx⟩ := hex
        rcases List.mem_cons.mp hx with rfl | hx
        · exact absurd hfx hc
        · exact ⟨x, hx, hfx⟩
      obtain ⟨pre, a, post, hsplit, hloop, hfa, hpre, hall⟩ := ih best maxm hex2
      refine ⟨c :: pre, a, post, by rw [hsplit]; rfl, hloop, hfa, ?_, ?_⟩
      · intro x hx
        rcases List.mem_cons.mp hx with rfl | hx
        · exact lt_of_le_of_lt (not_lt.mp hc) hfa
        · exact hpre x hx
      · intro x hx
        rcases List.mem_cons.mp hx with rfl | hx
        · exact le_trans (not_lt.mp hc) (le_of_lt hfa)
        · exact hall x hx

theorem tokensOf_empty : tokensOf "" = (∅ : Finset (List Char)) := by decide

theorem scoreOf_empty_chunk (q : String) : scoreOf q "" = 0 := by
  rw [scoreOf, tokensOf_empty, Finset.inter_empty, Finset.card_empty]

/-! ## Lemmas on the orchestrator -/

theorem chunkSummariesFrom_length (sm : Summarizer) :
    ∀ (cs : List String) (i : Nat), (chunkSummariesFrom sm i cs).length = cs.length := by
  intro cs
  induction cs with
  | nil => intro i; rfl
  | cons c rest ih => intro i; simp [chunkSummariesFrom, ih]

theorem chunkSummariesFrom_congr (sm sm' : Summarizer) :
    ∀ (cs : List String) (i : Nat),
      (∀ j, j < cs.length → sm' (i + j) = sm (i + j)) →
      chunkSummariesFrom sm' i cs = chunkSummariesFrom sm i cs := by
  intro cs
  induction cs with
  | nil => intro i _; rfl
  | cons c rest ih =>
    intro i h
    have h0 : sm' i = sm i := by simpa using h 0 (by simp)
    have hrec := ih (i + 1) (fun j hj => by
      have h2 := h (j + 1) (by simpa using Nat.succ_lt_succ hj)
      have he : i + (j + 1) = i + 1 + j := by omega
      rwa [he] at h2)
    simp [chunkSummariesFrom, h0, hrec]

theorem chunkSummariesFrom_getD_none (sm : Summarizer) :
    ∀ (cs : List String) (i j : Nat), j < cs.length →
      sm (i + j) (cs.getD j "") 200 100 = none →
      (chunkSummariesFrom sm i cs).getD j "" = "" := by
  intro cs
  induction cs with
  | nil => intro i j hj _; simp at hj
  | cons c rest ih =>
    intro i j hj hnone
    cases j with
    | zero =>
      simp only [List.getD_cons_zero] at hnone ⊢
      show ((sm (i + 0) c 200 100).getD "" : String) = ""
      rw [hnone]
      rfl
    | succ j =>
      simp only [List.getD_cons_succ] at hnone ⊢
      show (chunkSummariesFrom sm (i + 1) rest).getD j "" = ""
      refine ih (i + 1) j (by simpa using Nat.lt_of_succ_lt_succ hj) ?_
      have he : i + (j + 1) = i + 1 + j := by omega
      rwa [he] at hnone

theorem generate_summary_eq (sm : Summarizer) (text : String) (fm : Bool)
    (h : ¬ (split_into_chunks text).isEmpty) :
    generate_summary sm text fm =
      (if wordCount (combinedOf sm text fm) < 300 then combinedOf sm text fm
       else
        match sm (retainedChunks text fm).length (combinedOf sm text fm) 250 150 with
        | some s => s
        | none => combinedOf sm text fm) := by
  rw [generate_summary, if_neg h]
  rfl

/-! ## The claims -/

/-- C1: every chunk returned by `split_into_chunks` has word count at
most `max_words`, except a chunk that is a single (stripped) atomic
sentence unit of the input whose own word count exceeds `max_words`,
which is emitted whole as its own oversized chunk. -/
theorem C1_chunk_budget (text : String) (max_words : Nat) (c : String)
    (hc : c ∈ split_into_chunks text max_words) :
    wordCount c ≤ max_words ∨
      (c ∈ (reSplit text).map pyStrip ∧ max_words < wordCount c) := by
  refine chunkLoop_budget max_words ((reSplit text).map pyStrip) ?_ (reSplit text) [] ?_ ?_ c hc
  · intro u hu
    obtain ⟨s, _, rfl⟩ := List.mem_map.mp hu
    exact pyStrip_idem s
  · intro s hs
    exact List.mem_map_of_mem _ hs
  · left
    simp [wcSum]

/-- Witness for C1: on `"a b c. d"` with budget 2 the chunk `"a b c."`
is an oversized single sentence. -/
theorem C1_chunk_budget_witness :
    wordCount "a b c." ≤ 2 ∨
      ("a b c." ∈ (reSplit "a b c. d").map pyStrip ∧ 2 < wordCount "a b c.") :=
  C1_chunk_budget "a b c. d" 2 "a b c." (by decide)

/-- C6: the chunks of `split_into_chunks` partition the nonempty stripped
sentence units of the input: there is a list of groups whose
concatenation is exactly the unit list, in order, each chunk being the
space-join of its group. -/
theorem C6_chunk_coverage (text : String) (max_words : Nat) :
    ∃ groups : List (List String),
      split_into_chunks text max_words = groups.map combineJoin ∧
      groups.flatten = nonWsUnits text := by
  obtain ⟨groups, h1, h2⟩ := chunkLoop_cover max_words (reSplit text) []
  exact ⟨groups, h1, by simpa [nonWsUnits] using h2⟩

/-- C10: when the first nonempty sentence unit alone exceeds the budget,
`split_into_chunks` emits the empty string as its first chunk. -/
theorem C10_first_chunk_empty (text : String) (max_words : Nat) (s0 : String)
    (tl : List String) (h1 : nonWsUnits text = s0 :: tl)
    (h2 : max_words < wordCount s0) :
    ∃ tail, split_into_chunks text max_words = "" :: tail :=
  chunkLoop_first_oversized max_words (reSplit text) s0 tl
    (by simpa [nonWsUnits] using h1) h2

/-- Witness for C10: `"a b c. d"` with budget 2 starts with a 3-word
sentence, so the first chunk is empty. -/
theorem C10_first_chunk_empty_witness :
    ∃ tail, split_into_chunks "a b c. d" 2 = "" :: tail :=
  C10_first_chunk_empty "a b c. d" 2 "a b c." ["d"] (by decide) (by decide)

/-- C9 counterexample: on the canonical two-paragraph input — each
paragraph a single 40-word sentence, paragraphs separated by a blank line
— `split_into_chunks` with budget 50 does **not** yield one chunk per
paragraph: the sentence splitter requires a space after the punctuation,
finds no boundary at `.\n\n`, so the whole text is one oversized unit and
the result is an empty chunk followed by one chunk holding both
paragraphs. -/
theorem C9_scenario_counterexample :
    split_into_chunks (para1 ++ "\n\n" ++ para2) 50
      = ["", para1 ++ "\n\n" ++ para2] ∧
    split_into_chunks (para1 ++ "\n\n" ++ para2) 50 ≠ [para1, para2] := by
  decide

/-- C9 (amended): with a space after the first paragraph's terminating
punctuation (before the blank line), the two 40-word paragraphs are
distinct sentence units and the chunker yields exactly one chunk per
paragraph under budget 50. -/
theorem C9_scenario_amended :
    split_into_chunks (para1 ++ " \n\n" ++ para2) 50 = [para1, para2] := by
  decide

/-- C8 counterexample: the claim's cleaning contract (trim, drop junk
lines, drop case-insensitive duplicates — with no removal of blank lines)
disagrees with `clean_text` on `"a\n\nb"`: the code drops the blank line. -/
theorem C8_cleaner_counterexample :
    clean_text "a\n\nb" = "a\nb" ∧ clean_text_claim "a\n\nb" = "a\n\nb" ∧
    clean_text "a\n\nb" ≠ clean_text_claim "a\n\nb" := by
  decide

/-- C8 (amended): `clean_text` trims every line, removes lines that are
empty after trimming, removes lines containing a junk marker, and removes
case-insensitive duplicate lines keeping the first occurrence, in order;
empty input yields empty output (the amended contract `clean_text_amended`,
which adds blank-line removal to the claim's contract). -/
theorem C8_cleaner_amended (text : String) :
    clean_text text = clean_text_amended text := by
  rw [clean_text, clean_text_amended, cleanLoop_eq_spec]

/-- C7: when the chunker yields no chunks, `generate_summary` returns the
fixed "empty document" sentinel (a nonempty string), for every oracle and
either fast mode. -/
theorem C7_empty_doc (sm : Summarizer) (text : String) (fm : Bool)
    (h : split_into_chunks text = []) :
    generate_summary sm text fm = emptyDocMsg ∧ emptyDocMsg ≠ "" := by
  refine ⟨?_, by decide⟩
  rw [generate_summary, if_pos (by rw [h]; rfl)]

/-- Witness for C7: the empty string yields no chunks, hence the sentinel. -/
theorem C7_empty_doc_witness :
    generate_summary (fun _ _ _ _ => none) "" true = emptyDocMsg ∧ emptyDocMsg ≠ "" :=
  C7_empty_doc (fun _ _ _ _ => none) "" true (by decide)

/-- C2: when the combined per-chunk summary string has fewer than 300
words it is returned exactly and the result does not depend on any oracle
call past the per-chunk ones (no refinement call); when it has 300 words
or more, the one refinement call (input: the combined string, bounds
250/150) decides the result, its output on success and the unrefined
combined string on failure. -/
theorem C2_refinement_trigger (sm : Summarizer) (text : String) (fm : Bool)
    (hne : split_into_chunks text ≠ []) :
    (wordCount (combinedOf sm text fm) < 300 →
      generate_summary sm text fm = combinedOf sm text fm ∧
      ∀ sm' : Summarizer,
        (∀ i, i < (retainedChunks text fm).length → sm' i = sm i) →
        generate_summary sm' text fm = generate_summary sm text fm) ∧
    (300 ≤ wordCount (combinedOf sm text fm) →
      generate_summary sm text fm =
        match sm (retainedChunks text fm).length (combinedOf sm text fm) 250 150 with
        | some s => s
        | none => combinedOf sm text fm) := by
  have hemp : ¬ (split_into_chunks text).isEmpty := by
    simpa [List.isEmpty_iff] using hne
  constructor
  · intro hwc
    have h1 : generate_summary sm text fm = combinedOf sm text fm := by
      rw [generate_summary_eq sm text fm hemp, if_pos hwc]
    refine ⟨h1, ?_⟩
    intro sm' hagree
    have hcs : chunkSummaries sm' (retainedChunks text fm)
        = chunkSummaries sm (retainedChunks text fm) := by
      show chunkSummariesFrom sm' 0 (retainedChunks text fm)
          = chunkSummariesFrom sm 0 (retainedChunks text fm)
      refine chunkSummariesFrom_congr sm sm' (retainedChunks text fm) 0 ?_
      intro j hj
      simpa using hagree j hj
    have hcomb : combinedOf sm' text fm = combinedOf sm text fm := by
      rw [combinedOf, combinedOf, summariesOf, summariesOf, hcs]
    rw [generate_summary_eq sm' text fm hemp, hcomb, if_pos hwc, h1]
  · intro hwc
    rw [generate_summary_eq sm text fm hemp, if_neg (not_lt.mpr hwc)]

/-- Witness for C2: a one-chunk document whose per-chunk summary is
short, so the combined string is returned as-is. -/
theorem C2_refinement_trigger_witness :
    generate_summary (fun _ _ _ _ => some "ok") "Hi." false
      = combinedOf (fun _ _ _ _ => some "ok") "Hi." false :=
  ((C2_refinement_trigger (fun _ _ _ _ => some "ok") "Hi." false (by decide)).1
    (by decide)).1

/-- C4: with `fast_mode` and more than 4 chunks, the orchestrator keeps
exactly the first 4 chunks: the retained list, the per-chunk summary
calls and the final result are all those of the first 4 chunks alone, so
later chunks contribute nothing. -/
theorem C4_fast_mode (sm : Summarizer) (text : String)
    (h : 4 < (split_into_chunks text).length) :
    retainedChunks text true = (split_into_chunks text).take 4 ∧
    summariesOf sm text true = chunkSummaries sm ((split_into_chunks text).take 4) ∧
    generate_summary sm text true = summarizeChunks sm ((split_into_chunks text).take 4) := by
  have hret : retainedChunks text true = (split_into_chunks text).take 4 := by
    rw [retainedChunks]
    simp [h]
  have hne : ¬ (split_into_chunks text).isEmpty := by
    intro habs
    rw [List.isEmpty_iff] at habs
    rw [habs] at h
    simp at h
  refine ⟨hret, by rw [summariesOf, hret], ?_⟩
  rw [generate_summary, if_neg hne, hret]

/-- Witness for C4: a five-chunk text in fast mode. -/
theorem C4_fast_mode_witness :
    retainedChunks bigText true = (split_into_chunks bigText).take 4 ∧
    summariesOf (fun _ _ _ _ => none) bigText true
      = chunkSummaries (fun _ _ _ _ => none) ((split_into_chunks bigText).take 4) ∧
    generate_summary (fun _ _ _ _ => none) bigText true
      = summarizeChunks (fun _ _ _ _ => none) ((split_into_chunks bigText).take 4) :=
  C4_fast_mode (fun _ _ _ _ => none) bigText (by decide)

/-- C5: `generate_summary` degrades gracefully for every oracle
behaviour: the result is always the empty-document sentinel, the combined
per-chunk string, or the output of a successful refinement call; a failed
per-chunk call contributes the empty string at its position; and a failed
refinement call can only yield the sentinel or the unrefined combined
string. -/
theorem C5_graceful (sm : Summarizer) (text : String) (fm : Bool) :
    (generate_summary sm text fm = emptyDocMsg ∨
     generate_summary sm text fm = combinedOf sm text fm ∨
     ∃ s, sm (retainedChunks text fm).length (combinedOf sm text fm) 250 150 = some s ∧
       generate_summary sm text fm = s) ∧
    (∀ j, j < (retainedChunks text fm).length →
      sm j ((retainedChunks text fm).getD j "") 200 100 = none →
      (summariesOf sm text fm).getD j "" = "") ∧
    (sm (retainedChunks text fm).length (combinedOf sm text fm) 250 150 = none →
      generate_summary sm text fm = emptyDocMsg ∨
      generate_summary sm text fm = combinedOf sm text fm) := by
  refine ⟨?_, ?_, ?_⟩
  · by_cases hemp : (split_into_chunks text).isEmpty
    · left
      rw [generate_summary, if_pos hemp]
    · rw [generate_summary_eq sm text fm hemp]
      by_cases hwc : wordCount (combinedOf sm text fm) < 300
      · right; left
        rw [if_pos hwc]
      · rw [if_neg hwc]
        cases hcall : sm (retainedChunks text fm).length (combinedOf sm text fm) 250 150 with
        | none => right; left; rfl
        | some s => right; right; exact ⟨s, rfl, rfl⟩
  · intro j hj hnone
    show (chunkSummariesFrom sm 0 (retainedChunks text fm)).getD j "" = ""
    refine chunkSummariesFrom_getD_none sm (retainedChunks text fm) 0 j hj ?_
    rw [Nat.zero_add]
    exact hnone
  · intro hnone
    by_cases hemp : (split_into_chunks text).isEmpty
    · left
      rw [generate_summary, if_pos hemp]
    · right
      rw [generate_summary_eq sm text fm hemp]
      by_cases hwc : wordCount (combinedOf sm text fm) < 300
      · rw [if_pos hwc]
      · rw [if_neg hwc, hnone]

/-- Witness for C5: an always-failing oracle on a two-sentence document:
the failed chunk call contributes the empty string and the result is the
(here empty) combined string, not a failure. -/
theorem C5_graceful_witness :
    (summariesOf (fun _ _ _ _ => none) "One two. Three." false).getD 0 "" = "" ∧
    (generate_summary (fun _ _ _ _ => none) "One two. Three." false = emptyDocMsg ∨
     generate_summary (fun _ _ _ _ => none) "One two. Three." false
       = combinedOf (fun _ _ _ _ => none) "One two. Three." false) :=
  ⟨(C5_graceful (fun _ _ _ _ => none) "One two. Three." false).2.1 0 (by decide) rfl,
   (C5_graceful (fun _ _ _ _ => none) "One two. Three." false).2.2 rfl⟩

/-- C3: `find_answer` returns the first chunk whose token-overlap score
with the question is strictly greater than every earlier chunk's and at
least every later chunk's (first-seen wins ties); when no chunk shares a
token with the question it returns the "not found" sentinel. -/
theorem C3_retriever (q : String) (chunks : List String) :
    ((∀ c ∈ chunks, scoreOf q c = 0) → find_answer q chunks = notFoundMsg) ∧
    ((∃ c ∈ chunks, 0 < scoreOf q c) →
      ∃ pre best post, chunks = pre ++ best :: post ∧
        find_answer q chunks = best ∧ 0 < scoreOf q best ∧
        (∀ x ∈ pre, scoreOf q x < scoreOf q best) ∧
        (∀ x ∈ chunks, scoreOf q x ≤ scoreOf q best)) := by
  constructor
  · intro h
    rw [find_answer, faLoop_le (fun c => scoreOf q c) chunks none 0
      (fun c hc => le_of_eq (h c hc))]
  · intro hex
    obtain ⟨pre, a, post, hsplit, hloop, hfa, hpre, hall⟩ :=
      faLoop_pos (fun c => scoreOf q c) chunks none 0 hex
    have ha : a ≠ "" := by
      intro h0
      rw [h0, scoreOf_empty_chunk q] at hfa
      exact lt_irrefl 0 hfa
    refine ⟨pre, a, post, hsplit, ?_, hfa, hpre, hall⟩
    rw [find_answer, hloop]
    simp [ha]

/-- Witness for C3: a question sharing no word with any chunk yields the
sentinel. -/
theorem C3_retriever_witness :
    find_answer "pricing" ["alpha beta", "gamma delta"] = notFoundMsg :=
  (C3_retriever "pricing" ["alpha beta", "gamma delta"]).1 (by decide)
